import Mathlib

/-
Verification of the installation patching pipeline implemented in
cursor_pro_unlock_auto.py. Python strings are modelled as List Char,
JSON documents as association lists with unique keys (Python dict),
and the file system as explicit Option-valued file contents threaded
through each step. All definitions are executable and structurally
recursive so concrete runs reduce in the kernel.
-/

set_option autoImplicit false

/-! ## Marker tokens and their disabled (comment-wrapped) forms

Source (patch_workbench, lines 227-229):
  content.replace(checkForUpdates-token, wrapped form)
         .replace(restrictPremiumModels-token, wrapped form)
-/

/-- Tail of the first marker token, after its head character c. -/
def m1tail : List Char :=
  ['h', 'e', 'c', 'k', 'F', 'o', 'r', 'U', 'p', 'd', 'a', 't', 'e', 's']

/-- The first marker token, the literal checkForUpdates. -/
def m1tok : List Char := 'c' :: m1tail

/-- Tail of the second marker token, after its head character r. -/
def m2tail : List Char :=
  ['e', 's', 't', 'r', 'i', 'c', 't', 'P', 'r', 'e', 'm', 'i', 'u', 'm',
   'M', 'o', 'd', 'e', 'l', 's']

/-- The second marker token, the literal restrictPremiumModels. -/
def m2tok : List Char := 'r' :: m2tail

/-- Disabled form of the first marker: the marker wrapped in a block comment. -/
def w1tok : List Char := '/' :: '*' :: (m1tok ++ ['*', '/'])

/-- Disabled form of the second marker: the marker wrapped in a block comment. -/
def w2tok : List Char := '/' :: '*' :: (m2tok ++ ['*', '/'])

/-! ## Literal prefix test and substring containment -/

/-- Boolean test that pat is a literal prefix of l (character lists). -/
def isPre : List Char → List Char → Bool
  | [], _ => true
  | _ :: _, [] => false
  | a :: as, b :: bs => decide (a = b) && isPre as bs

/-- Boolean test that pat occurs as a literal substring of l, as the
Python operator in does on strings. -/
def hasTok (pat : List Char) : List Char → Bool
  | [] => false
  | c :: rest => isPre pat (c :: rest) || hasTok pat rest

/-! ## Python str.replace

pyReplaceF is the fuel-indexed worker; fuel at least the length of the
input makes it total on that input. pyReplace instantiates the fuel with
the input length. The semantics is that of CPython str.replace with a
nonempty pattern: scan left to right, at each position either match the
whole pattern (emit the replacement and continue after the match) or
copy one character. -/

/-- Fuel-indexed worker for Python str.replace with pattern p :: ps. -/
def pyReplaceF (p : Char) (ps rep : List Char) : Nat → List Char → List Char
  | _, [] => []
  | 0, l => l
  | fuel + 1, c :: rest =>
    if isPre (p :: ps) (c :: rest) then
      rep ++ pyReplaceF p ps rep fuel (rest.drop ps.length)
    else
      c :: pyReplaceF p ps rep fuel rest

/-- Python str.replace with the (nonempty) pattern p :: ps and replacement
rep, applied to l. -/
def pyReplace (p : Char) (ps rep l : List Char) : List Char :=
  pyReplaceF p ps rep l.length l

/-- The text transformation performed by patch_workbench (lines 227-229):
first replace every occurrence of checkForUpdates by its comment-wrapped
form, then replace every occurrence of restrictPremiumModels in the
result by its comment-wrapped form. -/
def patch_workbench_text (t : List Char) : List Char :=
  pyReplace 'r' m2tail w2tok (pyReplace 'c' m1tail w1tok t)

/-! ## Spec-side description of the script patch

Modelled from the spec: the system performs literal substring
replacements of the two fixed marker tokens, wrapping each occurrence in
a disabling comment form and preserving everything else in the file
byte-for-byte. wrapEveryMarker scans the text once, left to right; when
one of the two markers starts at the current position it emits the
wrapped marker and skips past the occurrence, otherwise it copies the
current byte unchanged. -/

/-- Fuel-indexed worker for the spec-side single scan. -/
def wrapEveryMarkerF : Nat → List Char → List Char
  | _, [] => []
  | 0, l => l
  | fuel + 1, c :: rest =>
    if isPre m1tok (c :: rest) then
      w1tok ++ wrapEveryMarkerF fuel (rest.drop m1tail.length)
    else if isPre m2tok (c :: rest) then
      w2tok ++ wrapEveryMarkerF fuel (rest.drop m2tail.length)
    else
      c :: wrapEveryMarkerF fuel rest

/-- Spec-side description: wrap every marker occurrence, copy every
other byte. -/
def wrapEveryMarker (l : List Char) : List Char :=
  wrapEveryMarkerF l.length l

/-! ## JSON documents and the config patch (modify_product_json)

A parsed JSON object (Python dict as produced by json.load) is an
association list with unique keys; item assignment updates the value in
place when the key is present and appends the pair otherwise, as Python
dict assignment does. -/

/-- JSON values. -/
inductive JVal where
  | jnum (n : Int)
  | jstr (s : String)
  | jbool (b : Bool)
  | jnull
  | jarr (elems : List JVal)
  | jobj (fields : List (String × JVal))

/-- A parsed top-level JSON object. -/
abbrev Doc := List (String × JVal)

/-- The fixed feature list written by modify_product_json (line 200). -/
def premiumModelsVals : List JVal :=
  [JVal.jstr "gpt-4o-mini", JVal.jstr "gpt-4", JVal.jstr "claude-3.5-sonnet"]

/-- Python dict item assignment on an association list with unique keys:
replace the value in place when the key is present, append otherwise. -/
def dictSet : Doc → String → JVal → Doc
  | [], k, v => [(k, v)]
  | (k', v') :: d, k, v =>
    if k' = k then (k, v) :: d else (k', v') :: dictSet d k v

/-- Python dict key access: the value stored under k, if any. -/
def jlookup (k : String) : Doc → Option JVal
  | [] => none
  | p :: d => if p.1 = k then some p.2 else jlookup k d

/-- The document transformation of modify_product_json (lines 199-200):
set tokenLimit to the configured limit and premiumModels to the fixed
feature list. -/
def configPatchDoc (d : Doc) (tokenLimit : Int) : Doc :=
  dictSet (dictSet d "tokenLimit" (JVal.jnum tokenLimit)) "premiumModels"
    (JVal.jarr premiumModelsVals)

/-- State of the product.json file as seen by modify_product_json. -/
inductive ConfigFile where
  | absent
  | malformed
  | parsed (d : Doc)

/-- Outcome of one pipeline step. -/
inductive StepOutcome where
  | success
  | skipped
  | fatalError

/-- File-level model of modify_product_json (lines 196-208): when the
path is missing the step is skipped and the file system is untouched;
when the file exists but json.load raises, the exception handler prints
and exits (fatal), leaving the file as it was; otherwise the patched
document is written back in full. -/
def modify_product_json (file : ConfigFile) (tokenLimit : Int) :
    ConfigFile × StepOutcome :=
  match file with
  | ConfigFile.absent => (ConfigFile.absent, StepOutcome.skipped)
  | ConfigFile.malformed => (ConfigFile.malformed, StepOutcome.fatalError)
  | ConfigFile.parsed d =>
    (ConfigFile.parsed (configPatchDoc d tokenLimit), StepOutcome.success)

/-! ## In-place writes and the states reachable on a mid-write failure

The write in modify_product_json (lines 201-202) and patch_workbench
(lines 230-231) is open(path, w) followed by a write of the new text:
the open truncates the file at once, then the content is written front
to back. If the process dies between those points the file holds a
proper prefix of the new content (possibly empty), not the prior
content. writeCrashStates lists the on-disk contents reachable when the
write stops after k characters, for every k. -/

/-- Contents the target file can hold if the in-place write of
newContent stops partway: every prefix of newContent. -/
def writeCrashStates (newContent : List Char) : List (List Char) :=
  (List.range (newContent.length + 1)).map fun k => newContent.take k

/-- Crash states of the patch_workbench write for a given original
script text. -/
def scriptPatchCrashStates (orig : List Char) : List (List Char) :=
  writeCrashStates (patch_workbench_text orig)

/-! ## Permission guard (check_and_set_permissions, lines 110-129)

The function returns immediately when the path does not exist; when the
path exists and is already writable no escalation runs; otherwise one
platform-specific escalation command runs (sudo chmod on Linux and
macOS, icacls on Windows, nothing on other platforms) and a failure of
that command prints an error and exits. The first component counts the
escalation commands executed. -/

/-- Host platform as reported by platform.system(). -/
inductive Platform where
  | linux
  | darwin
  | windows
  | other

/-- Result of the permission guard: normal return or process exit. -/
inductive PermOutcome where
  | ok
  | fatalExit

/-- Model of check_and_set_permissions: escalation-call count and
outcome, from the existence and writability of the path, whether the
escalation command would succeed, and the platform. -/
def check_and_set_permissions (pathExists writable escalationOk : Bool)
    (plat : Platform) : Nat × PermOutcome :=
  if !pathExists then (0, PermOutcome.ok)
  else if !writable then
    match plat with
    | Platform.linux =>
      if escalationOk then (1, PermOutcome.ok) else (1, PermOutcome.fatalExit)
    | Platform.darwin =>
      if escalationOk then (1, PermOutcome.ok) else (1, PermOutcome.fatalExit)
    | Platform.windows =>
      if escalationOk then (1, PermOutcome.ok) else (1, PermOutcome.fatalExit)
    | Platform.other => (0, PermOutcome.ok)
  else (0, PermOutcome.ok)

/-! ## Identifier reset (reset_machine_id, lines 166-183)

The step generates str(uuid.uuid4()) and writes it as the entire
content of the machineId file with open(path, w), creating the file
when absent and fully replacing any prior content otherwise.
uuidChars is modelled from the spec: a freshly generated 128-bit random
value in canonical textual encoding, namely 32 lowercase hex digits in
the grouping 8-4-4-4-12 separated by dashes. -/

/-- Lowercase hex digit for a value below 16. -/
def hexDigitChar (n : Nat) : Char :=
  if n < 10 then Char.ofNat (48 + n) else Char.ofNat (87 + n)

/-- Big-endian fixed-width hex rendering of n, width w digits. -/
def toHexAux : Nat → Nat → List Char
  | 0, _ => []
  | w + 1, n => toHexAux w (n / 16) ++ [hexDigitChar (n % 16)]

/-- Numeric value of a lowercase hex digit. -/
def hexCharVal (c : Char) : Nat :=
  if 97 ≤ c.toNat then c.toNat - 87 else c.toNat - 48

/-- Modelled from the spec: canonical textual encoding of a 128-bit
identifier value n, the dashed 8-4-4-4-12 hex form used by
str(uuid.uuid4()); the uuid library itself is outside the source file. -/
def uuidChars (n : Nat) : List Char :=
  let h := toHexAux 32 n
  h.take 8 ++ '-' ::
    ((h.drop 8).take 4 ++ '-' ::
      ((h.drop 12).take 4 ++ '-' ::
        ((h.drop 16).take 4 ++ '-' :: h.drop 20)))

/-- File-content model of the reset_machine_id write (lines 177-179):
the file afterwards holds exactly the freshly generated identifier,
whatever it held before (full overwrite; creation when absent). -/
def reset_machine_id (freshId : List Char) (prior : Option (List Char)) :
    Option (List Char) :=
  some freshId

/-! ## Process reaper (check_cursor_process, lines 149-164)

The loop walks the live processes; a process matches when the literal
Cursor occurs in its name. Each match gets proc.terminate() (graceful,
never proc.kill()) followed by time.sleep(1), and sets the found flag.
The trace records the side effects in order; the kill action exists in
the action alphabet but is never emitted. -/

/-- The match pattern used on process names. -/
def cursorTok : List Char := ['C', 'u', 'r', 's', 'o', 'r']

/-- Observable side effects of the reaper loop. -/
inductive PAction where
  | terminate (name : List Char)
  | sleepOne
  | kill (name : List Char)

/-- Model of check_cursor_process: given the process names and the
current found flag, the emitted action trace and the final flag. -/
def check_cursor_process : List (List Char) → Bool → List PAction × Bool
  | [], found => ([], found)
  | nm :: rest, found =>
    if hasTok cursorTok nm then
      let r := check_cursor_process rest true
      (PAction.terminate nm :: PAction.sleepOne :: r.1, r.2)
    else
      check_cursor_process rest found

/-! ## The pipeline (main, lines 348-352)

main runs check_cursor_process, reset_machine_id, modify_product_json,
patch_workbench and open_login_page in that order; every step reaches
its error handler only by exiting the process (exit(1)), so a failing
step stops the run at once: no later step starts, the effects of the
earlier successful steps stay applied, and nothing is rolled back. The
state type is abstract; applyStep is the effect of a successful step
and applyFail the partial effect the failing step leaves behind. -/

/-- The five pipeline steps. -/
inductive Step where
  | reap
  | resetId
  | configPatch
  | scriptPatch
  | login

/-- The fixed order in which main invokes the steps. -/
def pipelineOrder : List Step :=
  [Step.reap, Step.resetId, Step.configPatch, Step.scriptPatch, Step.login]

/-- Sequential execution of a list of steps: a failing step applies its
partial effect and exits; a successful step applies its effect and the
run continues. Returns final state, the steps that started, and whether
the run completed. -/
def runSteps {σ : Type} (fails : Step → Bool)
    (applyStep applyFail : Step → σ → σ) :
    List Step → σ → σ × List Step × Bool
  | [], w => (w, [], true)
  | s :: rest, w =>
    if fails s then (applyFail s w, [s], false)
    else
      let r := runSteps fails applyStep applyFail rest (applyStep s w)
      (r.1, s :: r.2.1, r.2.2)

/-- The whole pipeline, in the order fixed by main. -/
def runPipeline {σ : Type} (fails : Step → Bool)
    (applyStep applyFail : Step → σ → σ) (w0 : σ) :
    σ × List Step × Bool :=
  runSteps fails applyStep applyFail pipelineOrder w0

/-! ## Basic facts about isPre -/

theorem isPre_iff_append (s : List Char) :
    ∀ l, isPre s l = true ↔ ∃ u, l = s ++ u := by
  induction s with
  | nil =>
    intro l
    simp [isPre]
  | cons a as ih =>
    intro l
    cases l with
    | nil =>
      simp [isPre]
    | cons b bs =>
      simp only [isPre, Bool.and_eq_true, decide_eq_true_eq, ih bs]
      constructor
      · rintro ⟨rfl, u, rfl⟩
        exact ⟨u, rfl⟩
      · rintro ⟨u, h⟩
        cases h
        exact ⟨rfl, u, rfl⟩

theorem isPre_self_append (s u : List Char) : isPre s (s ++ u) = true :=
  (isPre_iff_append s (s ++ u)).mpr ⟨u, rfl⟩

theorem isPre_append_of (s a b : List Char) (h : isPre s a = true) :
    isPre s (a ++ b) = true := by
  rcases (isPre_iff_append s a).mp h with ⟨u, rfl⟩
  exact (isPre_iff_append s (s ++ u ++ b)).mpr ⟨u ++ b, by simp⟩

theorem isPre_eq_false_of_mismatch (pat s X : List Char) (j : Nat)
    (hjs : j < s.length) (hjp : j < pat.length)
    (hne : s.getD j ' ' ≠ pat.getD j ' ') :
    isPre pat (s ++ X) = false := by
  by_contra h
  rw [Bool.not_eq_false, isPre_iff_append] at h
  rcases h with ⟨u, hu⟩
  apply hne
  have h1 : (s ++ X).getD j ' ' = s.getD j ' ' := List.getD_append _ _ _ _ hjs
  have h2 : (pat ++ u).getD j ' ' = pat.getD j ' ' := List.getD_append _ _ _ _ hjp
  rw [← h1, hu, h2]

/-! ## Fuel stability and unfolding equations -/

theorem pyReplaceF_stable (p : Char) (ps rep : List Char) :
    ∀ (f1 : Nat) (l : List Char) (f2 : Nat), l.length ≤ f1 → l.length ≤ f2 →
      pyReplaceF p ps rep f1 l = pyReplaceF p ps rep f2 l := by
  intro f1
  induction f1 with
  | zero =>
    intro l f2 h1 _
    have : l = [] := List.eq_nil_of_length_eq_zero (Nat.le_zero.mp h1)
    subst this
    cases f2 <;> rfl
  | succ f ih =>
    intro l f2 h1 h2
    cases l with
    | nil => cases f2 <;> rfl
    | cons c rest =>
      cases f2 with
      | zero => simp at h2
      | succ f2' =>
        simp only [pyReplaceF]
        by_cases hc : isPre (p :: ps) (c :: rest) = true
        · rw [if_pos hc, if_pos hc]
          have hlen : (rest.drop ps.length).length ≤ f := by
            have := List.length_drop ps.length rest
            simp only [List.length_cons] at h1
            omega
          have hlen2 : (rest.drop ps.length).length ≤ f2' := by
            have := List.length_drop ps.length rest
            simp only [List.length_cons] at h2
            omega
          rw [ih _ f2' hlen hlen2]
        · rw [if_neg hc, if_neg hc]
          have hlen : rest.length ≤ f := by
            simp only [List.length_cons] at h1
            omega
          have hlen2 : rest.length ≤ f2' := by
            simp only [List.length_cons] at h2
            omega
          rw [ih _ f2' hlen hlen2]

theorem pyReplace_nil (p : Char) (ps rep : List Char) :
    pyReplace p ps rep [] = [] := rfl

theorem pyReplace_cons (p : Char) (ps rep : List Char) (c : Char)
    (rest : List Char) :
    pyReplace p ps rep (c :: rest) =
      if isPre (p :: ps) (c :: rest) then
        rep ++ pyReplace p ps rep (rest.drop ps.length)
      else
        c :: pyReplace p ps rep rest := by
  show pyReplaceF p ps rep (rest.length + 1) (c :: rest) = _
  simp only [pyReplaceF]
  by_cases hc : isPre (p :: ps) (c :: rest) = true
  · rw [if_pos hc, if_pos hc]
    have : (rest.drop ps.length).length ≤ rest.length := by
      rw [List.length_drop]; omega
    rw [pyReplaceF_stable p ps rep rest.length _ (rest.drop ps.length).length
      this le_rfl]
    rfl
  · rw [if_neg hc, if_neg hc]
    rfl

theorem wrapEveryMarkerF_stable :
    ∀ (f1 : Nat) (l : List Char) (f2 : Nat), l.length ≤ f1 → l.length ≤ f2 →
      wrapEveryMarkerF f1 l = wrapEveryMarkerF f2 l := by
  intro f1
  induction f1 with
  | zero =>
    intro l f2 h1 _
    have : l = [] := List.eq_nil_of_length_eq_zero (Nat.le_zero.mp h1)
    subst this
    cases f2 <;> rfl
  | succ f ih =>
    intro l f2 h1 h2
    cases l with
    | nil => cases f2 <;> rfl
    | cons c rest =>
      cases f2 with
      | zero => simp at h2
      | succ f2' =>
        simp only [wrapEveryMarkerF]
        simp only [List.length_cons] at h1 h2
        by_cases hc1 : isPre m1tok (c :: rest) = true
        · rw [if_pos hc1, if_pos hc1]
          have hl := List.length_drop m1tail.length rest
          rw [ih _ f2' (by omega) (by omega)]
        · rw [if_neg hc1, if_neg hc1]
          by_cases hc2 : isPre m2tok (c :: rest) = true
          · rw [if_pos hc2, if_pos hc2]
            have hl := List.length_drop m2tail.length rest
            rw [ih _ f2' (by omega) (by omega)]
          · rw [if_neg hc2, if_neg hc2]
            rw [ih _ f2' (by omega) (by omega)]

theorem wrapEveryMarker_nil : wrapEveryMarker [] = [] := rfl

theorem wrapEveryMarker_cons (c : Char) (rest : List Char) :
    wrapEveryMarker (c :: rest) =
      if isPre m1tok (c :: rest) then
        w1tok ++ wrapEveryMarker (rest.drop m1tail.length)
      else if isPre m2tok (c :: rest) then
        w2tok ++ wrapEveryMarker (rest.drop m2tail.length)
      else
        c :: wrapEveryMarker rest := by
  show wrapEveryMarkerF (rest.length + 1) (c :: rest) = _
  simp only [wrapEveryMarkerF]
  by_cases hc1 : isPre m1tok (c :: rest) = true
  · rw [if_pos hc1, if_pos hc1]
    have : (rest.drop m1tail.length).length ≤ rest.length := by
      rw [List.length_drop]; omega
    rw [wrapEveryMarkerF_stable rest.length _ (rest.drop m1tail.length).length
      this le_rfl]
    rfl
  · rw [if_neg hc1, if_neg hc1]
    by_cases hc2 : isPre m2tok (c :: rest) = true
    · rw [if_pos hc2, if_pos hc2]
      have : (rest.drop m2tail.length).length ≤ rest.length := by
        rw [List.length_drop]; omega
      rw [wrapEveryMarkerF_stable rest.length _
        (rest.drop m2tail.length).length this le_rfl]
      rfl
    · rw [if_neg hc2, if_neg hc2]
      rfl

/-! ## No occurrence of a pattern starting inside a fixed block -/

/-- The pattern pat cannot start at any position of s, whatever text
follows s. -/
def noTokStartIn (pat s : List Char) : Prop :=
  ∀ i, i < s.length → ∀ X, isPre pat (s.drop i ++ X) = false

/-- Decidable sufficient condition for noTokStartIn: at every start
position of s there is a mismatch with pat strictly inside s. -/
def mismatchInside (pat s : List Char) : Bool :=
  (List.range s.length).all fun i =>
    (List.range (min (s.length - i) pat.length)).any fun j =>
      decide ((s.drop i).getD j ' ' ≠ pat.getD j ' ')

theorem noTokStartIn_of_mismatchInside (pat s : List Char)
    (h : mismatchInside pat s = true) : noTokStartIn pat s := by
  intro i hi X
  have hall := List.all_eq_true.mp h i (List.mem_range.mpr hi)
  rcases List.any_eq_true.mp hall with ⟨j, hj, hne⟩
  rw [List.mem_range] at hj
  have hjs : j < (s.drop i).length := by
    rw [List.length_drop]
    omega
  have hjp : j < pat.length := by omega
  exact isPre_eq_false_of_mismatch pat (s.drop i) X j hjs hjp
    (of_decide_eq_true hne)

theorem no_m1_in_m2 : noTokStartIn m1tok m2tok :=
  noTokStartIn_of_mismatchInside _ _ (by decide)

theorem no_m2_in_m1 : noTokStartIn m2tok m1tok :=
  noTokStartIn_of_mismatchInside _ _ (by decide)

theorem no_m2_in_w1 : noTokStartIn m2tok w1tok :=
  noTokStartIn_of_mismatchInside _ _ (by decide)

/-! ## Replacement over a block free of the pattern -/

theorem pyReplace_append (p : Char) (ps rep : List Char) :
    ∀ (a b : List Char), noTokStartIn (p :: ps) a →
      pyReplace p ps rep (a ++ b) = a ++ pyReplace p ps rep b := by
  intro a
  induction a with
  | nil => intro b _; rfl
  | cons x a' ih =>
    intro b hno
    have h0 : isPre (p :: ps) (x :: (a' ++ b)) = false := by
      have := hno 0 (by simp) b
      simpa using this
    have hno' : noTokStartIn (p :: ps) a' := by
      intro i hi X
      have := hno (i + 1) (by simp; omega) X
      simpa using this
    rw [List.cons_append, pyReplace_cons, if_neg (by simp [h0]), ih b hno']
    simp

/-! ## The first replacement cannot create a slash-free prefix -/

theorem isPre_through_first_replace :
    ∀ (s : List Char), '/' ∉ s → ∀ (u : List Char),
      isPre s (pyReplace 'c' m1tail w1tok u) = true → isPre s u = true := by
  intro s
  induction s with
  | nil => intro _ u _; rfl
  | cons a s' ih =>
    intro hs u hpre
    cases u with
    | nil =>
      rw [pyReplace_nil] at hpre
      simp [isPre] at hpre
    | cons b rest =>
      rw [pyReplace_cons] at hpre
      by_cases hm : isPre ('c' :: m1tail) (b :: rest) = true
      · rw [if_pos hm] at hpre
        simp only [w1tok, List.cons_append, isPre, Bool.and_eq_true,
          decide_eq_true_eq] at hpre
        exact absurd hpre.1.symm (by simp at hs; exact hs.1)
      · rw [if_neg hm] at hpre
        simp only [isPre, Bool.and_eq_true, decide_eq_true_eq] at hpre ⊢
        refine ⟨hpre.1, ih ?_ rest hpre.2⟩
        simp at hs
        exact fun hmem => hs.2 hmem

/-! ## The composed double replacement equals the spec-side single scan -/

theorem patch_text_eq_wrap_aux :
    ∀ (n : Nat) (t : List Char), t.length ≤ n →
      pyReplace 'r' m2tail w2tok (pyReplace 'c' m1tail w1tok t) =
        wrapEveryMarker t := by
  intro n
  induction n with
  | zero =>
    intro t ht
    have : t = [] := List.eq_nil_of_length_eq_zero (Nat.le_zero.mp ht)
    subst this
    rfl
  | succ n ih =>
    intro t ht
    cases t with
    | nil => rfl
    | cons c rest =>
      by_cases h1 : isPre m1tok (c :: rest) = true
      · rcases (isPre_iff_append m1tok (c :: rest)).mp h1 with ⟨u, hu⟩
        have hrest : rest = m1tail ++ u := by
          simp only [m1tok, List.cons_append, List.cons.injEq] at hu
          exact hu.2
        subst hrest
        have h1' : isPre ('c' :: m1tail) (c :: (m1tail ++ u)) = true := h1
        rw [pyReplace_cons, if_pos h1', List.drop_left,
          pyReplace_append 'r' m2tail w2tok w1tok _ no_m2_in_w1]
        have hulen : u.length ≤ n := by
          have h14 : m1tail.length = 14 := by decide
          simp only [List.length_cons, List.length_append, h14] at ht
          omega
        rw [ih u hulen, wrapEveryMarker_cons, if_pos h1, List.drop_left]
      · by_cases h2 : isPre m2tok (c :: rest) = true
        · rcases (isPre_iff_append m2tok (c :: rest)).mp h2 with ⟨u, hu⟩
          have hc : c = 'r' := by
            simp only [m2tok, List.cons_append, List.cons.injEq] at hu
            exact hu.1
          have hrest : rest = m2tail ++ u := by
            simp only [m2tok, List.cons_append, List.cons.injEq] at hu
            exact hu.2
          subst hc
          subst hrest
          have hR1 : pyReplace 'c' m1tail w1tok ('r' :: (m2tail ++ u)) =
              m2tok ++ pyReplace 'c' m1tail w1tok u := by
            have hm : 'r' :: (m2tail ++ u) = m2tok ++ u := by simp [m2tok]
            rw [hm]
            exact pyReplace_append 'c' m1tail w1tok m2tok u no_m1_in_m2
          rw [hR1,
            show m2tok ++ pyReplace 'c' m1tail w1tok u =
              'r' :: (m2tail ++ pyReplace 'c' m1tail w1tok u) by simp [m2tok]]
          have hself : isPre ('r' :: m2tail)
              ('r' :: (m2tail ++ pyReplace 'c' m1tail w1tok u)) = true := by
            have := isPre_self_append m2tok (pyReplace 'c' m1tail w1tok u)
            simpa [m2tok] using this
          rw [pyReplace_cons, if_pos hself, List.drop_left]
          have hulen : u.length ≤ n := by
            have h20 : m2tail.length = 20 := by decide
            simp only [List.length_cons, List.length_append, h20] at ht
            omega
          rw [ih u hulen, wrapEveryMarker_cons, if_neg h1, if_pos h2,
            List.drop_left]
        · have h1' : isPre ('c' :: m1tail) (c :: rest) = true → False := h1
          rw [pyReplace_cons, if_neg h1']
          have hm2 : isPre ('r' :: m2tail)
              (c :: pyReplace 'c' m1tail w1tok rest) = false := by
            by_contra hcon
            rw [Bool.not_eq_false] at hcon
            simp only [isPre, Bool.and_eq_true, decide_eq_true_eq] at hcon
            have hslash : '/' ∉ m2tail := by decide
            have := isPre_through_first_replace m2tail hslash rest hcon.2
            apply h2
            simp only [m2tok, isPre, Bool.and_eq_true, decide_eq_true_eq]
            exact ⟨hcon.1, this⟩
          rw [pyReplace_cons, if_neg (by simp [hm2]),
            wrapEveryMarker_cons, if_neg h1, if_neg h2]
          have hrlen : rest.length ≤ n := by
            simp only [List.length_cons] at ht
            omega
          rw [ih rest hrlen]

theorem patch_text_eq_wrap (t : List Char) :
    patch_workbench_text t = wrapEveryMarker t :=
  patch_text_eq_wrap_aux t.length t le_rfl

/-! ## Occurrence facts for hasTok -/

theorem hasTok_append_right (pat : List Char) :
    ∀ (a b : List Char), hasTok pat b = true → hasTok pat (a ++ b) = true := by
  intro a
  induction a with
  | nil => intro b h; simpa using h
  | cons x a' ih =>
    intro b h
    simp only [List.cons_append, hasTok, Bool.or_eq_true]
    exact Or.inr (ih b h)

theorem hasTok_append_left (pat : List Char) :
    ∀ (a b : List Char), hasTok pat a = true → hasTok pat (a ++ b) = true := by
  intro a
  induction a with
  | nil => intro b h; simp [hasTok] at h
  | cons x a' ih =>
    intro b h
    simp only [hasTok, Bool.or_eq_true] at h
    simp only [List.cons_append, hasTok, Bool.or_eq_true]
    rcases h with h | h
    · exact Or.inl (isPre_append_of pat (x :: a') b h)
    · exact Or.inr (ih b h)

theorem hasTok_append_elim (pat : List Char) :
    ∀ (a b : List Char), noTokStartIn pat a → hasTok pat (a ++ b) = true →
      hasTok pat b = true := by
  intro a
  induction a with
  | nil => intro b _ h; simpa using h
  | cons x a' ih =>
    intro b hno h
    simp only [List.cons_append, hasTok, Bool.or_eq_true] at h
    rcases h with h | h
    · have hz := hno 0 (by simp) b
      simp only [List.drop_zero, List.cons_append] at hz
      have h' : isPre pat (x :: (a' ++ b)) = true := h
      rw [hz] at h'
      cases h'
    · refine ih b ?_ h
      intro i hi X
      have := hno (i + 1) (by simp; omega) X
      simpa using this

/-! ## Size and preservation facts for the spec-side scan -/

theorem wrap_length_ge :
    ∀ (n : Nat) (t : List Char), t.length ≤ n →
      t.length ≤ (wrapEveryMarker t).length := by
  intro n
  induction n with
  | zero =>
    intro t ht
    have : t = [] := List.eq_nil_of_length_eq_zero (Nat.le_zero.mp ht)
    subst this
    simp [wrapEveryMarker_nil]
  | succ n ih =>
    intro t ht
    cases t with
    | nil => simp [wrapEveryMarker_nil]
    | cons c rest =>
      rw [wrapEveryMarker_cons]
      by_cases h1 : isPre m1tok (c :: rest) = true
      · rcases (isPre_iff_append m1tok (c :: rest)).mp h1 with ⟨u, hu⟩
        have hrest : rest = m1tail ++ u := by
          simp only [m1tok, List.cons_append, List.cons.injEq] at hu
          exact hu.2
        subst hrest
        rw [if_pos h1, List.drop_left]
        have h14 : m1tail.length = 14 := by decide
        have h19 : w1tok.length = 19 := by decide
        have hul : u.length ≤ n := by
          simp only [List.length_cons, List.length_append, h14] at ht
          omega
        have := ih u hul
        simp only [List.length_append, List.length_cons, h14, h19]
        omega
      · rw [if_neg h1]
        by_cases h2 : isPre m2tok (c :: rest) = true
        · rcases (isPre_iff_append m2tok (c :: rest)).mp h2 with ⟨u, hu⟩
          have hrest : rest = m2tail ++ u := by
            simp only [m2tok, List.cons_append, List.cons.injEq] at hu
            exact hu.2
          subst hrest
          rw [if_pos h2, List.drop_left]
          have h20 : m2tail.length = 20 := by decide
          have h25 : w2tok.length = 25 := by decide
          have hul : u.length ≤ n := by
            simp only [List.length_cons, List.length_append, h20] at ht
            omega
          have := ih u hul
          simp only [List.length_append, List.length_cons, h20, h25]
          omega
        · rw [if_neg h2]
          have hul : rest.length ≤ n := by
            simp only [List.length_cons] at ht
            omega
          have := ih rest hul
          simp only [List.length_cons]
          omega

theorem wrap_length_gain :
    ∀ (n : Nat) (t : List Char), t.length ≤ n →
      (hasTok m1tok t || hasTok m2tok t) = true →
      t.length + 4 ≤ (wrapEveryMarker t).length := by
  intro n
  induction n with
  | zero =>
    intro t ht htok
    have : t = [] := List.eq_nil_of_length_eq_zero (Nat.le_zero.mp ht)
    subst this
    simp [hasTok] at htok
  | succ n ih =>
    intro t ht htok
    cases t with
    | nil => simp [hasTok] at htok
    | cons c rest =>
      rw [wrapEveryMarker_cons]
      by_cases h1 : isPre m1tok (c :: rest) = true
      · rcases (isPre_iff_append m1tok (c :: rest)).mp h1 with ⟨u, hu⟩
        have hrest : rest = m1tail ++ u := by
          simp only [m1tok, List.cons_append, List.cons.injEq] at hu
          exact hu.2
        subst hrest
        rw [if_pos h1, List.drop_left]
        have h14 : m1tail.length = 14 := by decide
        have h19 : w1tok.length = 19 := by decide
        have hul : u.length ≤ n := by
          simp only [List.length_cons, List.length_append, h14] at ht
          omega
        have := wrap_length_ge u.length u le_rfl
        simp only [List.length_append, List.length_cons, h14, h19]
        omega
      · rw [if_neg h1]
        by_cases h2 : isPre m2tok (c :: rest) = true
        · rcases (isPre_iff_append m2tok (c :: rest)).mp h2 with ⟨u, hu⟩
          have hrest : rest = m2tail ++ u := by
            simp only [m2tok, List.cons_append, List.cons.injEq] at hu
            exact hu.2
          subst hrest
          rw [if_pos h2, List.drop_left]
          have h20 : m2tail.length = 20 := by decide
          have h25 : w2tok.length = 25 := by decide
          have := wrap_length_ge u.length u le_rfl
          simp only [List.length_append, List.length_cons, h20, h25]
          omega
        · rw [if_neg h2]
          have htok' : (hasTok m1tok rest || hasTok m2tok rest) = true := by
            simp only [hasTok, Bool.or_eq_true] at htok ⊢
            rcases htok with (h | h) | (h | h)
            · exact absurd h h1
            · exact Or.inl h
            · exact absurd h h2
            · exact Or.inr h
          have hul : rest.length ≤ n := by
            simp only [List.length_cons] at ht
            omega
          have := ih rest hul htok'
          simp only [List.length_cons]
          omega

theorem wrap_eq_self_of_no_tok :
    ∀ (t : List Char), hasTok m1tok t = false → hasTok m2tok t = false →
      wrapEveryMarker t = t := by
  intro t
  induction t with
  | nil => intro _ _; rfl
  | cons c rest ih =>
    intro hm1 hm2
    simp only [hasTok, Bool.or_eq_false_iff] at hm1 hm2
    rw [wrapEveryMarker_cons, if_neg (by simp [hm1.1]),
      if_neg (by simp [hm2.1]), ih hm1.2 hm2.2]

theorem wrap_keeps_m1 :
    ∀ (n : Nat) (t : List Char), t.length ≤ n → hasTok m1tok t = true →
      hasTok m1tok (wrapEveryMarker t) = true := by
  intro n
  induction n with
  | zero =>
    intro t ht htok
    have : t = [] := List.eq_nil_of_length_eq_zero (Nat.le_zero.mp ht)
    subst this
    simp [hasTok] at htok
  | succ n ih =>
    intro t ht htok
    cases t with
    | nil => simp [hasTok] at htok
    | cons c rest =>
      rw [wrapEveryMarker_cons]
      by_cases h1 : isPre m1tok (c :: rest) = true
      · rw [if_pos h1]
        exact hasTok_append_left m1tok w1tok _ (by decide)
      · rw [if_neg h1]
        by_cases h2 : isPre m2tok (c :: rest) = true
        · rcases (isPre_iff_append m2tok (c :: rest)).mp h2 with ⟨u, hu⟩
          have hc : c = 'r' := by
            simp only [m2tok, List.cons_append, List.cons.injEq] at hu
            exact hu.1
          have hrest : rest = m2tail ++ u := by
            simp only [m2tok, List.cons_append, List.cons.injEq] at hu
            exact hu.2
          subst hc
          subst hrest
          rw [if_pos h2, List.drop_left]
          have htu : hasTok m1tok u = true := by
            have hfull : hasTok m1tok (m2tok ++ u) = true := by
              have : 'r' :: (m2tail ++ u) = m2tok ++ u := by simp [m2tok]
              rw [← this]
              exact htok
            exact hasTok_append_elim m1tok m2tok u no_m1_in_m2 hfull
          have hul : u.length ≤ n := by
            have h20 : m2tail.length = 20 := by decide
            simp only [List.length_cons, List.length_append, h20] at ht
            omega
          exact hasTok_append_right m1tok w2tok _ (ih u hul htu)
        · rw [if_neg h2]
          have htr : hasTok m1tok rest = true := by
            simp only [hasTok, Bool.or_eq_true] at htok
            rcases htok with h | h
            · exact absurd h h1
            · exact h
          have hul : rest.length ≤ n := by
            simp only [List.length_cons] at ht
            omega
          simp only [hasTok, Bool.or_eq_true]
          exact Or.inr (ih rest hul htr)

theorem wrap_keeps_m2 :
    ∀ (n : Nat) (t : List Char), t.length ≤ n → hasTok m2tok t = true →
      hasTok m2tok (wrapEveryMarker t) = true := by
  intro n
  induction n with
  | zero =>
    intro t ht htok
    have : t = [] := List.eq_nil_of_length_eq_zero (Nat.le_zero.mp ht)
    subst this
    simp [hasTok] at htok
  | succ n ih =>
    intro t ht htok
    cases t with
    | nil => simp [hasTok] at htok
    | cons c rest =>
      rw [wrapEveryMarker_cons]
      by_cases h1 : isPre m1tok (c :: rest) = true
      · rcases (isPre_iff_append m1tok (c :: rest)).mp h1 with ⟨u, hu⟩
        have hc : c = 'c' := by
          simp only [m1tok, List.cons_append, List.cons.injEq] at hu
          exact hu.1
        have hrest : rest = m1tail ++ u := by
          simp only [m1tok, List.cons_append, List.cons.injEq] at hu
          exact hu.2
        subst hc
        subst hrest
        rw [if_pos h1, List.drop_left]
        have htu : hasTok m2tok u = true := by
          have hfull : hasTok m2tok (m1tok ++ u) = true := by
            have : 'c' :: (m1tail ++ u) = m1tok ++ u := by simp [m1tok]
            rw [← this]
            exact htok
          exact hasTok_append_elim m2tok m1tok u no_m2_in_m1 hfull
        have hul : u.length ≤ n := by
          have h14 : m1tail.length = 14 := by decide
          simp only [List.length_cons, List.length_append, h14] at ht
          omega
        exact hasTok_append_right m2tok w1tok _ (ih u hul htu)
      · rw [if_neg h1]
        by_cases h2 : isPre m2tok (c :: rest) = true
        · rw [if_pos h2]
          exact hasTok_append_left m2tok w2tok _ (by decide)
        · rw [if_neg h2]
          have htr : hasTok m2tok rest = true := by
            simp only [hasTok, Bool.or_eq_true] at htok
            rcases htok with h | h
            · exact absurd h h2
            · exact h
          have hul : rest.length ≤ n := by
            simp only [List.length_cons] at ht
            omega
          simp only [hasTok, Bool.or_eq_true]
          exact Or.inr (ih rest hul htr)

/-! ## Lookup facts for dict assignment -/

theorem jlookup_dictSet_self :
    ∀ (d : Doc) (k : String) (v : JVal), jlookup k (dictSet d k v) = some v := by
  intro d
  induction d with
  | nil => intro k v; simp [dictSet, jlookup]
  | cons p d ih =>
    intro k v
    by_cases h : p.1 = k
    · simp [dictSet, h, jlookup]
    · simp only [dictSet]
      rw [if_neg (by exact h)]
      simp [jlookup, h, ih]

theorem jlookup_dictSet_other :
    ∀ (d : Doc) (k k0 : String) (v : JVal), k0 ≠ k →
      jlookup k0 (dictSet d k v) = jlookup k0 d := by
  intro d
  induction d with
  | nil =>
    intro k k0 v hne
    simp only [dictSet, jlookup]
    rw [if_neg fun h => hne h.symm]
  | cons p d ih =>
    intro k k0 v hne
    by_cases h : p.1 = k
    · rw [show dictSet (p :: d) k v = (k, v) :: d from by
        simp only [dictSet]; rw [if_pos h]]
      simp only [jlookup]
      rw [if_neg fun hh => hne hh.symm, if_neg (by rw [h]; exact fun hh => hne hh.symm)]
    · rw [show dictSet (p :: d) k v = p :: dictSet d k v from by
        simp only [dictSet]; rw [if_neg h]]
      simp only [jlookup]
      by_cases h0 : p.1 = k0
      · rw [if_pos h0, if_pos h0]
      · rw [if_neg h0, if_neg h0, ih k k0 v hne]

/-! ## Injectivity of the canonical identifier encoding -/

theorem hexCharVal_hexDigitChar : ∀ m, m < 16 → hexCharVal (hexDigitChar m) = m := by
  decide

theorem hexDigitChar_ne_dash : ∀ m, m < 16 → hexDigitChar m ≠ '-' := by
  decide

theorem toHexAux_length : ∀ (w n : Nat), (toHexAux w n).length = w := by
  intro w
  induction w with
  | zero => intro n; rfl
  | succ w ih => intro n; simp [toHexAux, ih]

theorem toHexAux_foldl :
    ∀ (w n a : Nat), n < 16 ^ w →
      (toHexAux w n).foldl (fun acc c => 16 * acc + hexCharVal c) a =
        a * 16 ^ w + n := by
  intro w
  induction w with
  | zero =>
    intro n a h
    have : n = 0 := by omega
    subst this
    simp [toHexAux]
  | succ w ih =>
    intro n a h
    simp only [toHexAux, List.foldl_append, List.foldl_cons, List.foldl_nil]
    have hdiv : n / 16 < 16 ^ w := by
      rw [pow_succ, Nat.mul_comm] at h
      exact Nat.div_lt_of_lt_mul h
    rw [ih (n / 16) a hdiv, hexCharVal_hexDigitChar (n % 16) (by omega)]
    have hm : 16 * (n / 16) + n % 16 = n := Nat.div_add_mod n 16
    have hp : (16 : Nat) ^ (w + 1) = 16 ^ w * 16 := pow_succ 16 w
    calc 16 * (a * 16 ^ w + n / 16) + n % 16
        = a * (16 ^ w * 16) + (16 * (n / 16) + n % 16) := by ring
      _ = a * 16 ^ (w + 1) + n := by rw [hm, ← hp]

theorem toHexAux_inj (n1 n2 : Nat) (h1 : n1 < 16 ^ 32) (h2 : n2 < 16 ^ 32)
    (he : toHexAux 32 n1 = toHexAux 32 n2) : n1 = n2 := by
  have e1 := toHexAux_foldl 32 n1 0 h1
  have e2 := toHexAux_foldl 32 n2 0 h2
  rw [he] at e1
  rw [e1] at e2
  omega

theorem toHexAux_no_dash : ∀ (w n : Nat), '-' ∉ toHexAux w n := by
  intro w
  induction w with
  | zero => intro n; simp [toHexAux]
  | succ w ih =>
    intro n
    simp only [toHexAux, List.mem_append, List.mem_singleton]
    rintro (h | h)
    · exact ih (n / 16) h
    · exact hexDigitChar_ne_dash (n % 16) (by omega) h.symm

theorem uuidChars_filter (n : Nat) :
    (uuidChars n).filter (fun c => !decide (c = '-')) = toHexAux 32 n := by
  have hseg : ∀ (l : List Char), (∀ c ∈ l, c ≠ '-') →
      l.filter (fun c => !decide (c = '-')) = l := by
    intro l hl
    apply List.filter_eq_self.mpr
    intro c hc
    simp [hl c hc]
  have edash : ∀ (l : List Char),
      List.filter (fun c => !decide (c = '-')) ('-' :: l) =
        List.filter (fun c => !decide (c = '-')) l := by
    intro l
    simp
  have hno := toHexAux_no_dash 32 n
  have e1 := hseg ((toHexAux 32 n).take 8)
    (fun c hc heq => hno (heq ▸ List.take_subset _ _ hc))
  have e2 := hseg (((toHexAux 32 n).drop 8).take 4)
    (fun c hc heq => hno (heq ▸ List.drop_subset _ _ (List.take_subset _ _ hc)))
  have e3 := hseg (((toHexAux 32 n).drop 12).take 4)
    (fun c hc heq => hno (heq ▸ List.drop_subset _ _ (List.take_subset _ _ hc)))
  have e4 := hseg (((toHexAux 32 n).drop 16).take 4)
    (fun c hc heq => hno (heq ▸ List.drop_subset _ _ (List.take_subset _ _ hc)))
  have e5 := hseg ((toHexAux 32 n).drop 20)
    (fun c hc heq => hno (heq ▸ List.drop_subset _ _ hc))
  simp only [uuidChars]
  rw [List.filter_append, edash, List.filter_append, edash,
    List.filter_append, edash, List.filter_append, edash,
    e1, e2, e3, e4, e5]
  have s16 : (toHexAux 32 n).drop 16 =
      ((toHexAux 32 n).drop 16).take 4 ++ (toHexAux 32 n).drop 20 := by
    have := List.take_append_drop 4 ((toHexAux 32 n).drop 16)
    rw [List.drop_drop] at this
    norm_num at this
    exact this.symm
  have s12 : (toHexAux 32 n).drop 12 =
      ((toHexAux 32 n).drop 12).take 4 ++ (toHexAux 32 n).drop 16 := by
    have := List.take_append_drop 4 ((toHexAux 32 n).drop 12)
    rw [List.drop_drop] at this
    norm_num at this
    exact this.symm
  have s8 : (toHexAux 32 n).drop 8 =
      ((toHexAux 32 n).drop 8).take 4 ++ (toHexAux 32 n).drop 12 := by
    have := List.take_append_drop 4 ((toHexAux 32 n).drop 8)
    rw [List.drop_drop] at this
    norm_num at this
    exact this.symm
  have s0 : toHexAux 32 n =
      (toHexAux 32 n).take 8 ++ (toHexAux 32 n).drop 8 :=
    (List.take_append_drop 8 (toHexAux 32 n)).symm
  conv_rhs => rw [s0, s8, s12, s16]

theorem uuidChars_inj (n1 n2 : Nat) (h1 : n1 < 2 ^ 128) (h2 : n2 < 2 ^ 128)
    (he : uuidChars n1 = uuidChars n2) : n1 = n2 := by
  have h16 : (2 : Nat) ^ 128 = 16 ^ 32 := by norm_num
  have hf := congrArg (List.filter fun c => !decide (c = '-')) he
  rw [uuidChars_filter, uuidChars_filter] at hf
  exact toHexAux_inj n1 n2 (h16 ▸ h1) (h16 ▸ h2) hf

/-! ## Trace characterization of the process reaper -/

theorem check_cursor_process_trace :
    ∀ (procs : List (List Char)) (found : Bool),
      check_cursor_process procs found =
        (List.flatten (procs.map fun nm =>
            if hasTok cursorTok nm then
              [PAction.terminate nm, PAction.sleepOne]
            else []),
          found || procs.any fun nm => hasTok cursorTok nm) := by
  intro procs
  induction procs with
  | nil => intro found; simp [check_cursor_process]
  | cons nm rest ih =>
    intro found
    by_cases h : hasTok cursorTok nm = true
    · simp [check_cursor_process, h, ih true, ih found]
    · simp only [Bool.not_eq_true] at h
      simp [check_cursor_process, h, ih found]

/-! ## Claim theorems -/

/-- C1 counterexample: the claim that a second run leaves already-patched
text unchanged is false at a concrete input. Patching the bare marker
checkForUpdates yields its wrapped form; running patch again on that
already-patched text wraps the marker a second time instead of leaving
the text unchanged. -/
theorem patch_workbench_rewraps_patched_text :
    patch_workbench_text m1tok = w1tok ∧
    patch_workbench_text w1tok = ['/', '*'] ++ w1tok ++ ['*', '/'] ∧
    patch_workbench_text (patch_workbench_text m1tok) ≠
      patch_workbench_text m1tok := by
  decide

/-- C1 (amended): patch_workbench is not idempotent. Re-running it on its
own output leaves the text unchanged exactly when the original text
contains no marker occurrence at all; on any text with a marker
occurrence (in particular on every nontrivially patched output, where
the marker is still present inside its comment wrapper) the second run
changes the text again by re-wrapping. -/
theorem patch_workbench_idempotent_iff_no_marker (t : List Char) :
    (patch_workbench_text (patch_workbench_text t) = patch_workbench_text t) ↔
      (hasTok m1tok t = false ∧ hasTok m2tok t = false) := by
  rw [patch_text_eq_wrap (patch_workbench_text t), patch_text_eq_wrap t]
  constructor
  · intro h
    by_contra hcon
    rw [not_and_or] at hcon
    have hor : (hasTok m1tok t || hasTok m2tok t) = true := by
      rcases hcon with hc | hc
      · rw [Bool.not_eq_false] at hc
        simp [hc]
      · rw [Bool.not_eq_false] at hc
        simp [hc]
    have hor2 : (hasTok m1tok (wrapEveryMarker t) ||
        hasTok m2tok (wrapEveryMarker t)) = true := by
      cases hx : hasTok m1tok t with
      | true => simp [wrap_keeps_m1 t.length t le_rfl hx]
      | false =>
        have hx2 : hasTok m2tok t = true := by
          rw [hx] at hor
          simpa using hor
        simp [wrap_keeps_m2 t.length t le_rfl hx2]
    have hlen := wrap_length_gain (wrapEveryMarker t).length
      (wrapEveryMarker t) le_rfl hor2
    have hexq : (wrapEveryMarker (wrapEveryMarker t)).length =
        (wrapEveryMarker t).length := by rw [h]
    omega
  · rintro ⟨hm1, hm2⟩
    have he := wrap_eq_self_of_no_tok t hm1 hm2
    rw [he]
    exact he

/-- C4: for every input text, the patch_workbench text transformation
equals the spec-side description wrapEveryMarker: every literal
occurrence of the two marker tokens is replaced by its comment-wrapped
disabled form (the marker staying present inside the wrapper, since the
wrapped form is the marker surrounded by slash-star and star-slash) and
every other byte is copied unchanged. -/
theorem patch_workbench_wraps_every_marker_occurrence (t : List Char) :
    patch_workbench_text t = wrapEveryMarker t :=
  patch_text_eq_wrap t

/-- C2: on an existing, parseable document, modify_product_json writes
back the patched document, in which tokenLimit holds the given limit,
premiumModels holds the fixed feature list, and every other top-level
key holds exactly its prior value. -/
theorem modify_product_json_read_modify_write (d : Doc) (tokenLimit : Int) :
    modify_product_json (ConfigFile.parsed d) tokenLimit =
      (ConfigFile.parsed (configPatchDoc d tokenLimit), StepOutcome.success) ∧
    jlookup "tokenLimit" (configPatchDoc d tokenLimit) =
      some (JVal.jnum tokenLimit) ∧
    jlookup "premiumModels" (configPatchDoc d tokenLimit) =
      some (JVal.jarr premiumModelsVals) ∧
    ∀ k : String, k ≠ "tokenLimit" → k ≠ "premiumModels" →
      jlookup k (configPatchDoc d tokenLimit) = jlookup k d := by
  refine ⟨rfl, ?_, ?_, ?_⟩
  · rw [configPatchDoc,
      jlookup_dictSet_other _ _ _ _ (by decide),
      jlookup_dictSet_self]
  · rw [configPatchDoc, jlookup_dictSet_self]
  · intro k hk1 hk2
    rw [configPatchDoc, jlookup_dictSet_other _ _ _ _ hk2,
      jlookup_dictSet_other _ _ _ _ hk1]

/-- C2 witness: the preservation clause applied at a concrete document
with one other key. -/
theorem modify_product_json_read_modify_write_witness :
    jlookup "a" (configPatchDoc [("a", JVal.jnum 1)] 500000) =
      jlookup "a" [("a", JVal.jnum 1)] :=
  (modify_product_json_read_modify_write [("a", JVal.jnum 1)] 500000).2.2.2
    "a" (by decide) (by decide)

/-- C10: whatever the prior value stored under premiumModels (absent,
non-list, or a longer list) and whatever the token limit,
modify_product_json sets premiumModels to exactly the fixed
three-element list. -/
theorem modify_product_json_premium_models_fixed (d : Doc) (tokenLimit : Int) :
    jlookup "premiumModels" (configPatchDoc d tokenLimit) =
      some (JVal.jarr
        [JVal.jstr "gpt-4o-mini", JVal.jstr "gpt-4",
         JVal.jstr "claude-3.5-sonnet"]) := by
  rw [configPatchDoc, jlookup_dictSet_self]
  rfl

/-- C8: on a missing path, modify_product_json leaves the file system
untouched (the file stays absent, nothing is written) and reports the
skipped, non-error outcome. -/
theorem modify_product_json_missing_path_skipped (tokenLimit : Int) :
    modify_product_json ConfigFile.absent tokenLimit =
      (ConfigFile.absent, StepOutcome.skipped) :=
  rfl

/-- C6: when the path does not exist, check_and_set_permissions returns
success with zero escalation calls whatever the other inputs; when the
path exists and is already writable, it likewise returns success with
zero escalation calls on every platform. -/
theorem check_and_set_permissions_common_path (writable escalationOk : Bool)
    (plat : Platform) :
    check_and_set_permissions false writable escalationOk plat =
      (0, PermOutcome.ok) ∧
    check_and_set_permissions true true escalationOk plat =
      (0, PermOutcome.ok) :=
  ⟨rfl, rfl⟩

/-- C3 counterexample: the claim that a failure partway through a patch
write always leaves the prior content intact is false: the in-place
write truncates first, so the empty content is a reachable crash state
of the script patch of the text checkForUpdates, and it differs from the
prior content. -/
theorem write_crash_state_loses_prior_content :
    ¬ (∀ (orig : List Char), ∀ s ∈ scriptPatchCrashStates orig, s = orig) := by
  intro h
  have := h m1tok [] (by decide)
  exact absurd this (by decide)

/-- C3 (amended): a patch step that fails partway through its write
leaves the target file holding some prefix of the new content - in
particular the empty, just-truncated state is always reachable - and
the prior content is preserved only when it happens to be such a
prefix. -/
theorem write_crash_states_are_prefixes (orig : List Char) :
    [] ∈ scriptPatchCrashStates orig ∧
    ∀ s ∈ scriptPatchCrashStates orig, s <+: patch_workbench_text orig := by
  constructor
  · refine List.mem_map.mpr ⟨0, List.mem_range.mpr (by omega), rfl⟩
  · intro s hs
    rcases List.mem_map.mp hs with ⟨k, _, rfl⟩
    exact List.take_prefix k _

/-- C3 witness: the amended statement applied at the concrete original
text checkForUpdates and the crash state consisting of one slash. -/
theorem write_crash_states_are_prefixes_witness :
    [] ∈ scriptPatchCrashStates m1tok ∧
    ['/'] <+: patch_workbench_text m1tok :=
  ⟨(write_crash_states_are_prefixes m1tok).1,
   (write_crash_states_are_prefixes m1tok).2 ['/'] (by decide)⟩

/-- C7: the identifier reset writes the freshly generated 128-bit
identifier in canonical textual encoding as the entire file content,
creating the file when absent and fully replacing any prior content, and
two consecutive resets whose generated values differ write different
contents (the collision bound of the generator being the assumption that
the two 128-bit draws differ). -/
theorem reset_machine_id_overwrites_with_fresh (n1 n2 : Nat)
    (prior : Option (List Char)) (h1 : n1 < 2 ^ 128) (h2 : n2 < 2 ^ 128)
    (hne : n1 ≠ n2) :
    reset_machine_id (uuidChars n1) prior = some (uuidChars n1) ∧
    reset_machine_id (uuidChars n2) (reset_machine_id (uuidChars n1) prior) =
      some (uuidChars n2) ∧
    uuidChars n2 ≠ uuidChars n1 :=
  ⟨rfl, rfl, fun he => hne (uuidChars_inj n2 n1 h2 h1 he).symm⟩

/-- C7 witness: two concrete consecutive resets, on an initially absent
file, with distinct generated values. -/
theorem reset_machine_id_overwrites_with_fresh_witness :
    reset_machine_id (uuidChars 0) none = some (uuidChars 0) ∧
    reset_machine_id (uuidChars 1) (reset_machine_id (uuidChars 0) none) =
      some (uuidChars 1) ∧
    uuidChars 1 ≠ uuidChars 0 :=
  reset_machine_id_overwrites_with_fresh 0 1 none (by norm_num) (by norm_num)
    (by decide)

/-- C9: the reaper emits, in process order, exactly one graceful
terminate action followed by one fixed one-second sleep for every
process whose name contains the pattern Cursor, and nothing else (in
particular never a force-kill action); the found flag is set exactly
when some process matched; and on an empty process set it returns the
empty trace with the flag clear, a normal successful outcome. -/
theorem check_cursor_process_graceful_and_total (procs : List (List Char)) :
    check_cursor_process procs false =
      (List.flatten (procs.map fun nm =>
          if hasTok cursorTok nm then
            [PAction.terminate nm, PAction.sleepOne]
          else []),
        procs.any fun nm => hasTok cursorTok nm) ∧
    check_cursor_process [] false = ([], false) := by
  refine ⟨?_, rfl⟩
  have := check_cursor_process_trace procs false
  simpa using this

/-- C5: the pipeline runs its steps strictly sequentially in the fixed
order reap, identifier reset, config patch, script patch, login. The
steps that start are exactly the maximal prefix of successful steps
followed by the first failing step if there is one, so no step starts
before every earlier step has succeeded and on a failure no later step
runs; the final state carries exactly the effects of the successful
prefix (plus whatever partial effect the failing step itself left), so
the effects of earlier successful steps remain applied and nothing is
rolled back; and the run completes exactly when every step succeeds. -/
theorem runPipeline_sequential_no_rollback (σ : Type) (fails : Step → Bool)
    (applyStep applyFail : Step → σ → σ) (w0 : σ) :
    (runPipeline fails applyStep applyFail w0).2.1 =
        pipelineOrder.takeWhile (fun s => !fails s) ++
          (pipelineOrder.dropWhile (fun s => !fails s)).take 1 ∧
    (runPipeline fails applyStep applyFail w0).1 =
        (match pipelineOrder.dropWhile (fun s => !fails s) with
         | [] => pipelineOrder.foldl (fun w s => applyStep s w) w0
         | sf :: _ =>
           applyFail sf ((pipelineOrder.takeWhile fun s => !fails s).foldl
             (fun w s => applyStep s w) w0)) ∧
    ((runPipeline fails applyStep applyFail w0).2.2 = true ↔
      ∀ s ∈ pipelineOrder, fails s = false) := by
  cases h1 : fails Step.reap <;> cases h2 : fails Step.resetId <;>
    cases h3 : fails Step.configPatch <;> cases h4 : fails Step.scriptPatch <;>
    cases h5 : fails Step.login <;>
    simp [runPipeline, runSteps, pipelineOrder, List.takeWhile,
      List.dropWhile, h1, h2, h3, h4, h5]
